import Mathlib

/-!
Verification of the battery-constrained exploration core of the
Mars-Rover-Exploration repository (src/main.py).

The explorer (`map_surface_with_battery_constraint` and its helpers) is
embedded shallowly below; Python dicts become association lists with
dict-faithful insert/lookup, the two while loops (the radius loop and the
parent-chain walk of `_reconstruct_path`) become fuel-indexed recursions
whose fuel is provably sufficient, and the rover - whose class is not part
of the analysed sources - is modelled from the specification.
-/

set_option maxRecDepth 100000

namespace MarsRover

abbrev Coord := Int × Int

/-- The four movement directions of src/main.py (keys of the DIRS dict). -/
inductive Dir
| N
| S
| E
| W
deriving DecidableEq, Repr

open Dir

/-- Unit (row, col) delta of each direction, as in the DIRS dict of src/main.py. -/
def delta : Dir → Int × Int
| N => (-1, 0)
| S => (1, 0)
| E => (0, 1)
| W => (0, -1)

/-- The OPPOSITE dict of src/main.py. -/
def OPPOSITE : Dir → Dir
| N => S
| S => N
| E => W
| W => E

/-- Iteration order of the DIRS dict in src/main.py (insertion order N, S, E, W). -/
def DIRS : List Dir := [N, S, E, W]

/-- Apply one direction's unit delta to a coordinate. -/
def stepc (c : Coord) (d : Dir) : Coord := (c.1 + (delta d).1, c.2 + (delta d).2)

/-- FULL_BATTERY constant of src/main.py. -/
def FULL_BATTERY : Nat := 20

/-- Lookup in an association list, the embedding of Python dict access. -/
def lookupC {α : Type} : List (Coord × α) → Coord → Option α
| [], _ => none
| (k, v) :: t, c => if c = k then some v else lookupC t c

/-- Dict assignment `m[k] = v`: replace the binding in place if the key is
present, otherwise append a new binding at the end (Python dicts preserve
insertion order). -/
def insertD {α : Type} : List (Coord × α) → Coord → α → List (Coord × α)
| [], k, v => [(k, v)]
| (k', v') :: t, k, v => if k = k' then (k, v) :: t else (k', v') :: insertD t k v

/-- Keys of an association list. -/
def keysD {α : Type} (m : List (Coord × α)) : List Coord := m.map Prod.fst

/-- Cell of a grid at a (row, col) coordinate, none when out of bounds. -/
def cellAt (g : List (List Char)) (c : Coord) : Option Char :=
  if 0 ≤ c.1 ∧ 0 ≤ c.2 then
    match g[c.1.toNat]? with
    | some row => row[c.2.toNat]?
    | none => none
  else none

/-- Modelled from the spec: the repository's Rover class (rover.py) is not
among the analysed sources, only its `move` / `get_current_location`
interface is used by src/main.py.  Following spec sections 2 and 6 the rover
holds a grid-bound position and a battery. -/
structure Rover where
  grid : List (List Char)
  pos : Coord
  battery : Nat
deriving Repr, DecidableEq

/-- Modelled from the spec: `move(direction) -> (success, reason)` of the
missing rover.py.  Per spec sections 2, 4.1 and 6: a move is refused with
reason "Insufficient Battery" when the battery is exhausted, and with reason
"Obstructed Space" when the destination cell is obstructed ('X') or off the
grid; a successful move costs one battery unit and reports reason None
(here `none`).  Arriving on the home cell 'H' restores the battery to
FULL_BATTERY, which realises the per-excursion budget of spec section 4.1
and the multi-excursion scenarios of spec section 8. -/
def Rover.move (rv : Rover) (d : Dir) : Rover × Bool × Option String :=
  if rv.battery = 0 then (rv, false, some "Insufficient Battery")
  else
    let dest := stepc rv.pos d
    match cellAt rv.grid dest with
    | some ch =>
      if ch = 'X' then (rv, false, some "Obstructed Space")
      else
        let b := if ch = 'H' then FULL_BATTERY else rv.battery - 1
        ({ rv with pos := dest, battery := b }, true, none)
    | none => (rv, false, some "Obstructed Space")

/-- Modelled from the spec: `currentLocationSymbol()` of the missing
rover.py - the terrain symbol of the cell the rover stands on. -/
def Rover.get_current_location (rv : Rover) : Char :=
  (cellAt rv.grid rv.pos).getD ' '

/-- Row/column of the unique 'H' cell of the planet grid (spec section 6);
(0, 0) for a grid without one. -/
def findHomeAux : Nat → List (List Char) → Coord
| _, [] => (0, 0)
| r, row :: rest =>
  match row.findIdx? (fun ch => ch = 'H') with
  | some c => ((r : Int), (c : Int))
  | none => findHomeAux (r + 1) rest

/-- Absolute coordinate of the home cell of a planet grid. -/
def findHome (g : List (List Char)) : Coord := findHomeAux 0 g

/-- Modelled from the spec: `Rover(planet)` - a fresh rover standing on the
home cell with a full battery. -/
def initRover (g : List (List Char)) : Rover :=
  { grid := g, pos := findHome g, battery := FULL_BATTERY }

/-- `_manhattan` of src/main.py. -/
def _manhattan (a b : Coord) : Nat := (a.1 - b.1).natAbs + (a.2 - b.2).natAbs

/-- `_roundtrip_cost` of src/main.py. -/
def _roundtrip_cost (path_to_tile : List Dir) (nbr home : Coord) : Nat :=
  path_to_tile.length + 1 + _manhattan nbr home

/-- `_neighbours` of src/main.py: the four neighbours of a position in DIRS
order. -/
def _neighbours (pos : Coord) : List (Dir × Coord) :=
  DIRS.map (fun d => (d, stepc pos d))

/-- Walk of the parent links of `_reconstruct_path` (the `while parents[cur]`
loop of src/main.py), with explicit fuel; directions are accumulated by
consing, which yields the list src/main.py obtains by appending and finally
reversing. -/
def reconAux (parents : List (Coord × Option Coord)) : Nat → Coord → List Dir → List Dir
| 0, _, acc => acc
| fuel + 1, cur, acc =>
  match lookupC parents cur with
  | some (some prev) =>
    match DIRS.find? (fun d => decide (stepc prev d = cur)) with
    | some d => reconAux parents fuel prev (d :: acc)
    | none => reconAux parents fuel prev acc
  | _ => acc

/-- `_reconstruct_path` of src/main.py.  The fuel `parents.length` is
sufficient for every parent map the explorer builds (the chain of a
well-formed parent map is shorter than the map). -/
def _reconstruct_path (target : Coord) (parents : List (Coord × Option Coord)) : List Dir :=
  reconAux parents parents.length target []

/-- `_reverse_path` of src/main.py. -/
def _reverse_path (path : List Dir) : List Dir := path.reverse.map OPPOSITE

/-- `_travel` of src/main.py: issue each move of a path in sequence,
discarding the results. -/
def _travel (rv : Rover) (path : List Dir) : Rover :=
  path.foldl (fun r d => (r.move d).1) rv

/-- Mutable state of `map_surface_with_battery_constraint` in src/main.py.
The `log` field is a purely observational ghost log of the probe-move
attempts (coordinate, success flag, failure reason); it influences nothing. -/
structure ExploreState where
  rover : Rover
  explored : List (Coord × Char)
  parents : List (Coord × Option Coord)
  frontier : List Coord
  nextFrontier : List Coord
  radius : Nat
  log : List (Coord × Bool × Option String)
deriving Repr

/-- Body of the `for d, nbr in _neighbours(tile)` loop of
`map_surface_with_battery_constraint` (src/main.py lines 86-99). -/
def probeNeighbour (path : List Dir) (tile : Coord) (st : ExploreState)
    (dn : Dir × Coord) : ExploreState :=
  let d := dn.1
  let nbr := dn.2
  if (lookupC st.explored nbr).isSome then st
  else if FULL_BATTERY < _roundtrip_cost path nbr (0, 0) then st
  else
    let mv := st.rover.move d
    if mv.2.1 then
      let sym := mv.1.get_current_location
      let rv2 := (mv.1.move (OPPOSITE d)).1
      { st with
        rover := rv2
        explored := insertD st.explored nbr sym
        parents := insertD st.parents nbr (some tile)
        nextFrontier := st.nextFrontier ++ [nbr]
        log := st.log ++ [(nbr, true, mv.2.2)] }
    else
      { st with
        rover := mv.1
        explored :=
          if mv.2.2 = some "Obstructed Space" then insertD st.explored nbr 'X'
          else st.explored
        log := st.log ++ [(nbr, false, mv.2.2)] }

/-- Body of the `for tile in frontier` loop of
`map_surface_with_battery_constraint` (src/main.py lines 82-101). -/
def processTile (st : ExploreState) (tile : Coord) : ExploreState :=
  let path := _reconstruct_path tile st.parents
  let st1 := { st with rover := _travel st.rover path }
  let st2 := (_neighbours tile).foldl (probeNeighbour path tile) st1
  { st2 with rover := _travel st2.rover (_reverse_path path) }

/-- The `while frontier and 2 * (radius + 1) <= FULL_BATTERY` loop of
src/main.py, with explicit fuel; the guard bounds the iteration count by
FULL_BATTERY / 2, so any fuel of at least that size gives the loop's exact
behaviour. -/
def exploreLoop : Nat → ExploreState → ExploreState
| 0, st => st
| fuel + 1, st =>
  if st.frontier ≠ [] ∧ 2 * (st.radius + 1) ≤ FULL_BATTERY then
    let st1 := st.frontier.foldl processTile { st with nextFrontier := [] }
    exploreLoop fuel { st1 with frontier := st1.nextFrontier, radius := st1.radius + 1 }
  else st

/-- Initial explorer state of src/main.py lines 73-78: fresh rover, home
explored with the rover's reported symbol, home's parent is the None
sentinel, frontier is {home}, radius 0. -/
def initState (g : List (List Char)) : ExploreState :=
  let rv := initRover g
  { rover := rv
    explored := [((0, 0), rv.get_current_location)]
    parents := [((0, 0), none)]
    frontier := [(0, 0)]
    nextFrontier := []
    radius := 0
    log := [] }

/-- The whole exploration phase of `map_surface_with_battery_constraint`:
the radius loop run to completion (FULL_BATTERY iterations of fuel are more
than the 10 the guard permits). -/
def runExplore (g : List (List Char)) : ExploreState :=
  exploreLoop FULL_BATTERY (initState g)

/-- List minimum, `min(...)` of Python on a nonempty list. -/
def listMin : List Int → Int
| [] => 0
| x :: xs => xs.foldl min x

/-- List maximum, `max(...)` of Python on a nonempty list. -/
def listMax : List Int → Int
| [] => 0
| x :: xs => xs.foldl max x

/-- The `in_bounds` list of `_sparse_to_dense`: coordinates of the
non-obstructed entries, in insertion order. -/
def nonObstructed (explored : List (Coord × Char)) : List Coord :=
  (explored.filter (fun e => e.2 ≠ 'X')).map Prod.fst

/-- min_r of `_sparse_to_dense`. -/
def minRowD (explored : List (Coord × Char)) : Int :=
  listMin ((nonObstructed explored).map Prod.fst)

/-- max_r of `_sparse_to_dense`. -/
def maxRowD (explored : List (Coord × Char)) : Int :=
  listMax ((nonObstructed explored).map Prod.fst)

/-- min_c of `_sparse_to_dense`. -/
def minColD (explored : List (Coord × Char)) : Int :=
  listMin ((nonObstructed explored).map Prod.snd)

/-- max_c of `_sparse_to_dense`. -/
def maxColD (explored : List (Coord × Char)) : Int :=
  listMax ((nonObstructed explored).map Prod.snd)

/-- Write one cell of a dense grid (`grid[rr][cc] = ch`). -/
def set2d (g : List (List Char)) (i j : Nat) (ch : Char) : List (List Char) :=
  g.set i ((g.getD i []).set j ch)

/-- Read one cell of a dense grid. -/
def get2d (g : List (List Char)) (i j : Nat) : Option Char :=
  match g[i]? with
  | some row => row[j]?
  | none => none

/-- Body of the `for (r, c), ch in explored.items()` loop of
`_sparse_to_dense` (src/main.py lines 216-219): write the entry's symbol at
its box-relative cell when it falls inside the box. -/
def writeEntry (min_r min_c h w : Int) (g : List (List Char)) (e : Coord × Char) :
    List (List Char) :=
  let rr := e.1.1 - min_r
  let cc := e.1.2 - min_c
  if 0 ≤ rr ∧ rr < h ∧ 0 ≤ cc ∧ cc < w then set2d g rr.toNat cc.toNat e.2 else g

/-- The dense, still untrimmed grid of `_sparse_to_dense` (src/main.py lines
211-219): a '?'-filled box over the bounding box of the non-obstructed
coordinates, overwritten with every entry that falls inside the box. -/
def densePreTrim (explored : List (Coord × Char)) : List (List Char) :=
  let min_r := minRowD explored
  let max_r := maxRowD explored
  let min_c := minColD explored
  let max_c := maxColD explored
  let h := max_r - min_r + 1
  let w := max_c - min_c + 1
  let grid0 := List.replicate h.toNat (List.replicate w.toNat '?')
  explored.foldl (writeEntry min_r min_c h w) grid0

/-- Is a row made only of the '?' placeholder (`all(ch == '?' for ch in row)`). -/
def allUnknown (row : List Char) : Bool := row.all (fun ch => ch = '?')

/-- The `while grid and all '?' in grid[0]: grid.pop(0)` loop of
`_trim_unknown_border`. -/
def popLeadingUnknown : List (List Char) → List (List Char)
| [] => []
| r :: g => if allUnknown r then popLeadingUnknown g else r :: g

/-- The `while grid and all '?' in grid[-1]: grid.pop()` loop of
`_trim_unknown_border`: trailing all-placeholder rows are removed, which is
the leading removal on the reversed list. -/
def popTrailingUnknown (g : List (List Char)) : List (List Char) :=
  (popLeadingUnknown g.reverse).reverse

/-- Python's `zip(*g)` (as used twice by `_trim_unknown_border`): repeatedly
take the heads of all rows, stopping as soon as any row is exhausted.  The
fuel is the first row's length, which bounds the number of produced tuples. -/
def zipRowsAux : Nat → List (List Char) → List (List Char)
| 0, _ => []
| _, [] => []
| fuel + 1, g =>
  if g.all (fun r => r ≠ []) then
    (g.map (fun r => r.headD '?')) :: zipRowsAux fuel (g.map (fun r => r.tail))
  else []

/-- `list(map(list, zip(*g)))` of src/main.py. -/
def zipRows (g : List (List Char)) : List (List Char) :=
  zipRowsAux (g.headD []).length g

/-- `_trim_unknown_border` of src/main.py: pop all-placeholder rows from the
front then from the back, guard the empty grid, then do the same to the
columns through a transposition and transpose back. -/
def _trim_unknown_border (g : List (List Char)) : List (List Char) :=
  let g1 := popTrailingUnknown (popLeadingUnknown g)
  if g1 = [] then [[]]
  else zipRows (popTrailingUnknown (popLeadingUnknown (zipRows g1)))

/-- `_sparse_to_dense` of src/main.py. -/
def _sparse_to_dense (explored : List (Coord × Char)) : List (List Char) :=
  if nonObstructed explored = [] then [[]]
  else _trim_unknown_border (densePreTrim explored)

/-- `map_surface_with_battery_constraint` of src/main.py: run the battery
constrained layered exploration and densify the discovered map. -/
def map_surface_with_battery_constraint (g : List (List Char)) : List (List Char) :=
  _sparse_to_dense (runExplore g).explored

/-- Read one cell of a dense grid at signed indices (none when negative). -/
def get2dI (g : List (List Char)) (i j : Int) : Option Char :=
  if 0 ≤ i ∧ 0 ≤ j then get2d g i.toNat j.toNat else none

/-- Grid rectangularity: every row has width `w`. -/
def Rect (g : List (List Char)) (w : Nat) : Prop := ∀ row ∈ g, row.length = w

/-- The columns of a dense grid read off by index, following the spec's
description of the trimming transposition (spec section 4.4); the width is
taken from the first row, as Python's zip over the rows of a rectangular
grid does. -/
def specColumns (g : List (List Char)) : List (List Char) :=
  (List.range (g.headD []).length).map (fun j => g.map (fun row => row.getD j '?'))

/-- Row trimming as the spec words it: drop the leading, then the trailing,
all-placeholder rows (spec section 4.4). -/
def specRowTrim (g : List (List Char)) : List (List Char) :=
  ((g.dropWhile allUnknown).reverse.dropWhile allUnknown).reverse

/-- Border trimming as the spec words it: one row-trim pass, the empty-grid
guard, then one column-trim pass through transposition - no row re-trim
afterwards (spec section 4.4). -/
def specTrimBorder (g : List (List Char)) : List (List Char) :=
  let g1 := specRowTrim g
  if g1 = [] then [[]]
  else specColumns (specRowTrim (specColumns g1))

/-- Position reached by starting at `c` and applying each direction's unit
delta in order. -/
def followPath (c : Coord) (p : List Dir) : Coord := p.foldl stepc c

/-- A map extension (all existing bindings preserved). -/
def MapLe {α : Type} (m m' : List (Coord × α)) : Prop :=
  ∀ k v, lookupC m k = some v → lookupC m' k = some v

/-- The coordinate `c` reaches home (0, 0) in `n` parent-link steps: the
tree-shape invariant of the Parent-Map (spec section 3). -/
inductive ReachesHome (parents : List (Coord × Option Coord)) : Coord → Nat → Prop
| home : lookupC parents (0, 0) = some none → ReachesHome parents (0, 0) 0
| step {c p : Coord} {n : Nat} (d : Dir) :
    lookupC parents c = some (some p) → c = stepc p d →
    ReachesHome parents p n → ReachesHome parents c (n + 1)

/-- Run invariant of `map_surface_with_battery_constraint`: the parent map
is a home-rooted unit-step tree covered by the discovered map, frontier and
next-frontier coordinates are discovered, every discovered coordinate is
within Manhattan distance FULL_BATTERY / 2 of home, keys are unique, and
every successful or obstruction probe logged has a map entry. -/
structure Inv (st : ExploreState) : Prop where
  nodupE : (keysD st.explored).Nodup
  homeP : lookupC st.parents (0, 0) = some none
  subPE : ∀ c, (lookupC st.parents c).isSome → (lookupC st.explored c).isSome
  wfP : ∀ c, (lookupC st.parents c).isSome →
    ∃ n, ReachesHome st.parents c n ∧ n + 1 ≤ st.parents.length
  frontP : ∀ c ∈ st.frontier, (lookupC st.parents c).isSome
  nextP : ∀ c ∈ st.nextFrontier, (lookupC st.parents c).isSome
  distE : ∀ c v, lookupC st.explored c = some v → _manhattan c (0, 0) ≤ 10
  logOK : ∀ e ∈ st.log, (e.2.1 = true ∨ e.2.2 = some "Obstructed Space") →
    (lookupC st.explored e.1).isSome

/-- Growth of the two maps across a state transition. -/
structure Ext (s t : ExploreState) : Prop where
  exploredLe : MapLe s.explored t.explored
  parentsLe : MapLe s.parents t.parents

/-- A 4 x 10 planet: home starts a nine-cell eastward corridor whose
second-to-last cell (relative (0, 8)) forks into three fresh free
neighbours, so its excursion costs 8 + 3*2 + 8 = 22 moves against the
20-unit battery. -/
def overspendPlanet : List (List Char) :=
  ["XXXXXXXX.X",
   "XXXXXXXX.X",
   "H.........",
   "XXXXXXXX.X"].map String.toList

/-- A probe scenario: the fresh rover of a 1 x 2 planet whose eastern cell is
obstructed. -/
def probeTestState : ExploreState := initState (["HX"].map String.toList)

/-- A two-entry discovered map whose only obstruction lies outside the
bounding box of its non-obstructed part. -/
def denseTestMap : List (Coord × Char) := [((0, 0), 'H'), ((0, 2), 'X')]

/-- A 2 x 1 grid with an all-placeholder first row. -/
def trimTestGrid : List (List Char) := [['?'], ['H']]

-- ── association list lemmas ─────────────────────────────────────────────

theorem lookupC_insertD_self {α : Type} (m : List (Coord × α)) (k : Coord) (v : α) :
    lookupC (insertD m k v) k = some v := by
  induction m with
  | nil => simp [insertD, lookupC]
  | cons e t ih =>
    by_cases h : k = e.1
    · simp [insertD, lookupC, h]
    · simp [insertD, lookupC, h, ih]

theorem lookupC_insertD_ne {α : Type} (m : List (Coord × α)) (k v) {c : Coord}
    (h : c ≠ k) : lookupC (insertD m k v) c = lookupC m c := by
  induction m with
  | nil => simp [insertD, lookupC, h]
  | cons e t ih =>
    by_cases hk : k = e.1
    · subst hk
      simp [insertD, lookupC, h]
    · by_cases hc : c = e.1
      · simp [insertD, lookupC, hk, hc]
      · simp [insertD, lookupC, hk, hc, ih]

theorem lookupC_eq_none_iff {α : Type} (m : List (Coord × α)) (k : Coord) :
    lookupC m k = none ↔ k ∉ keysD m := by
  induction m with
  | nil => simp [lookupC, keysD]
  | cons e t ih =>
    by_cases h : k = e.1
    · simp [lookupC, keysD, h]
    · simp [lookupC, keysD, h, ih]

theorem lookupC_isSome_iff {α : Type} (m : List (Coord × α)) (k : Coord) :
    (lookupC m k).isSome ↔ k ∈ keysD m := by
  induction m with
  | nil => simp [lookupC, keysD]
  | cons e t ih =>
    by_cases h : k = e.1
    · simp [lookupC, keysD, h]
    · simp [lookupC, keysD, h, ih]

theorem keysD_insertD_fresh {α : Type} (m : List (Coord × α)) (k v)
    (h : lookupC m k = none) : keysD (insertD m k v) = keysD m ++ [k] := by
  induction m with
  | nil => simp [insertD, keysD]
  | cons e t ih =>
    obtain ⟨k', v'⟩ := e
    have hk : ¬ k = k' := by
      intro hkk
      simp [lookupC, hkk] at h
    simp only [lookupC, if_neg hk] at h
    simp [insertD, keysD, hk] at ih ⊢
    exact ih h

theorem length_insertD_fresh {α : Type} (m : List (Coord × α)) (k v)
    (h : lookupC m k = none) : (insertD m k v).length = m.length + 1 := by
  have := keysD_insertD_fresh m k v h
  have h1 : (keysD (insertD m k v)).length = (keysD m ++ [k]).length := by rw [this]
  simpa [keysD] using h1

theorem nodup_keysD_insertD {α : Type} (m : List (Coord × α)) (k v)
    (hn : (keysD m).Nodup) (h : lookupC m k = none) :
    (keysD (insertD m k v)).Nodup := by
  rw [keysD_insertD_fresh m k v h]
  have hk : k ∉ keysD m := (lookupC_eq_none_iff m k).mp h
  simp [List.nodup_append, hn, hk]

theorem mem_of_lookupC_eq_some {α : Type} {m : List (Coord × α)} {k : Coord} {v : α}
    (h : lookupC m k = some v) : (k, v) ∈ m := by
  induction m with
  | nil => simp [lookupC] at h
  | cons e t ih =>
    by_cases hk : k = e.1
    · simp only [lookupC, if_pos hk] at h
      obtain rfl := Option.some.inj h
      subst hk
      exact List.mem_cons_self _ _
    · simp only [lookupC, if_neg hk] at h
      exact List.mem_cons_of_mem _ (ih h)

theorem lookupC_eq_some_of_mem_nodup {α : Type} {m : List (Coord × α)} {k : Coord} {v : α}
    (hmem : (k, v) ∈ m) (hn : (keysD m).Nodup) : lookupC m k = some v := by
  induction m with
  | nil => simp at hmem
  | cons e t ih =>
    simp only [keysD, List.map_cons, List.nodup_cons] at hn
    rcases List.mem_cons.mp hmem with h | h
    · cases h
      simp [lookupC]
    · have hk : ¬ k = e.1 := by
        intro hkk
        exact hn.1 (hkk ▸ (List.mem_map.mpr ⟨(k, v), h, rfl⟩))
      simp only [lookupC, if_neg hk]
      exact ih h hn.2

-- ── direction and distance lemmas ───────────────────────────────────────

theorem deltaAbs (d : Dir) : ((delta d).1).natAbs + ((delta d).2).natAbs = 1 := by
  cases d <;> rfl

theorem mem_DIRS (d : Dir) : d ∈ DIRS := by
  cases d <;> simp [DIRS]

theorem snd_eq_stepc_of_mem_neighbours {tile : Coord} {dn : Dir × Coord}
    (h : dn ∈ _neighbours tile) : dn.2 = stepc tile dn.1 := by
  simp only [_neighbours, List.mem_map] at h
  obtain ⟨a, _, ha⟩ := h
  rw [← ha]

theorem manhattan_stepc_le (c b : Coord) (d : Dir) :
    _manhattan (stepc c d) b ≤ _manhattan c b + 1 := by
  show (c.1 + (delta d).1 - b.1).natAbs + (c.2 + (delta d).2 - b.2).natAbs ≤
    (c.1 - b.1).natAbs + (c.2 - b.2).natAbs + 1
  have h1 := deltaAbs d
  have e1 : c.1 + (delta d).1 - b.1 = c.1 - b.1 + (delta d).1 := by ring
  have e2 : c.2 + (delta d).2 - b.2 = c.2 - b.2 + (delta d).2 := by ring
  rw [e1, e2]
  have a1 := Int.natAbs_add_le (c.1 - b.1) (delta d).1
  have a2 := Int.natAbs_add_le (c.2 - b.2) (delta d).2
  omega

theorem followPath_append (c : Coord) (p : List Dir) (d : Dir) :
    followPath c (p ++ [d]) = stepc (followPath c p) d := by
  simp [followPath, List.foldl_append]

-- ── parent chains and path reconstruction ───────────────────────────────

theorem MapLe.refl {α : Type} (m : List (Coord × α)) : MapLe m m :=
  fun _ _ h => h

theorem MapLe.comp {α : Type} {m₁ m₂ m₃ : List (Coord × α)}
    (h₁ : MapLe m₁ m₂) (h₂ : MapLe m₂ m₃) : MapLe m₁ m₃ :=
  fun k v h => h₂ k v (h₁ k v h)

theorem MapLe.insert_fresh {α : Type} (m : List (Coord × α)) (k v)
    (h : lookupC m k = none) : MapLe m (insertD m k v) := by
  intro k' v' hk'
  by_cases hkk : k' = k
  · rw [hkk, h] at hk'
    cases hk'
  · rw [lookupC_insertD_ne m k v hkk]
    exact hk'

theorem MapLe.isSome {α : Type} {m m' : List (Coord × α)} (h : MapLe m m')
    {k : Coord} (hk : (lookupC m k).isSome) : (lookupC m' k).isSome := by
  obtain ⟨v, hv⟩ := Option.isSome_iff_exists.mp hk
  exact Option.isSome_iff_exists.mpr ⟨v, h k v hv⟩

theorem ReachesHome.mono {P P' : List (Coord × Option Coord)} (h : MapLe P P')
    {c : Coord} {n : Nat} (hr : ReachesHome P c n) : ReachesHome P' c n := by
  induction hr with
  | home hl => exact .home (h _ _ hl)
  | step d hl hstep _ ih => exact .step d (h _ _ hl) hstep ih

theorem ReachesHome.manhattan_le {P : List (Coord × Option Coord)}
    {c : Coord} {n : Nat} (hr : ReachesHome P c n) : _manhattan c (0, 0) ≤ n := by
  induction hr with
  | home _ => simp [_manhattan]
  | step d hl hstep _ ih =>
    subst hstep
    calc _manhattan (stepc _ d) (0, 0) ≤ _manhattan _ (0, 0) + 1 := manhattan_stepc_le _ _ d
      _ ≤ _ + 1 := Nat.add_le_add_right ih 1

theorem reconAux_spec {parents : List (Coord × Option Coord)} {c : Coord} {n : Nat}
    (hr : ReachesHome parents c n) :
    ∀ fuel acc, n ≤ fuel →
      ∃ p, reconAux parents fuel c acc = p ++ acc ∧ p.length = n ∧
        followPath (0, 0) p = c := by
  induction hr with
  | home hl =>
    intro fuel acc _
    refine ⟨[], ?_, rfl, rfl⟩
    cases fuel with
    | zero => simp [reconAux]
    | succ f =>
      simp only [reconAux, hl]
      simp
  | @step c' p' m d hl hstep hp ih =>
    intro fuel acc hf
    cases fuel with
    | zero => omega
    | succ f =>
      have hmem : (DIRS.find? (fun d' => decide (stepc p' d' = c'))).isSome := by
        refine List.find?_isSome.mpr ⟨d, mem_DIRS d, ?_⟩
        simp [hstep]
      obtain ⟨d', hd'⟩ := Option.isSome_iff_exists.mp hmem
      have hpd' : stepc p' d' = c' := by
        have := List.find?_some hd'
        simpa using this
      have hone : reconAux parents (f + 1) c' acc = reconAux parents f p' (d' :: acc) := by
        simp only [reconAux, hl, hd']
      obtain ⟨q, hq, hqlen, hqend⟩ := ih f (d' :: acc) (by omega)
      refine ⟨q ++ [d'], ?_, by simp [hqlen], ?_⟩
      · rw [hone, hq]
        simp
      · rw [followPath_append, hqend, hpd']

theorem reconstruct_spec {parents : List (Coord × Option Coord)} {c : Coord} {n : Nat}
    (hr : ReachesHome parents c n) (hn : n ≤ parents.length) :
    (_reconstruct_path c parents).length = n ∧
      followPath (0, 0) (_reconstruct_path c parents) = c := by
  obtain ⟨p, hp, hlen, hend⟩ := reconAux_spec hr parents.length [] hn
  unfold _reconstruct_path
  rw [hp]
  simpa using ⟨hlen, hend⟩

-- ── probeNeighbour branch equations ─────────────────────────────────────

theorem probeNeighbour_of_explored (path : List Dir) (tile : Coord)
    (st : ExploreState) (dn : Dir × Coord)
    (h : (lookupC st.explored dn.2).isSome) :
    probeNeighbour path tile st dn = st := by
  simp [probeNeighbour, h]

theorem probeNeighbour_of_cost (path : List Dir) (tile : Coord)
    (st : ExploreState) (dn : Dir × Coord)
    (h : FULL_BATTERY < _roundtrip_cost path dn.2 (0, 0)) :
    probeNeighbour path tile st dn = st := by
  have h' : FULL_BATTERY < _roundtrip_cost path dn.2 0 := h
  by_cases h1 : (lookupC st.explored dn.2).isSome
  · simp [probeNeighbour, h1]
  · simp [probeNeighbour, h1, h']

theorem probeNeighbour_success (path : List Dir) (tile : Coord)
    (st : ExploreState) (dn : Dir × Coord) (rv : Rover) (r : Option String)
    (hfresh : lookupC st.explored dn.2 = none)
    (hcost : _roundtrip_cost path dn.2 (0, 0) ≤ FULL_BATTERY)
    (hmv : st.rover.move dn.1 = (rv, true, r)) :
    probeNeighbour path tile st dn =
      { st with
        rover := (rv.move (OPPOSITE dn.1)).1
        explored := insertD st.explored dn.2 rv.get_current_location
        parents := insertD st.parents dn.2 (some tile)
        nextFrontier := st.nextFrontier ++ [dn.2]
        log := st.log ++ [(dn.2, true, r)] } := by
  have hc' : ¬ FULL_BATTERY < _roundtrip_cost path dn.2 0 := Nat.not_lt.mpr hcost
  simp [probeNeighbour, hfresh, hc', hmv]

theorem probeNeighbour_failure (path : List Dir) (tile : Coord)
    (st : ExploreState) (dn : Dir × Coord) (rv : Rover) (r : Option String)
    (hfresh : lookupC st.explored dn.2 = none)
    (hcost : _roundtrip_cost path dn.2 (0, 0) ≤ FULL_BATTERY)
    (hmv : st.rover.move dn.1 = (rv, false, r)) :
    probeNeighbour path tile st dn =
      { st with
        rover := rv
        explored :=
          if r = some "Obstructed Space" then insertD st.explored dn.2 'X'
          else st.explored
        log := st.log ++ [(dn.2, false, r)] } := by
  have hc' : ¬ FULL_BATTERY < _roundtrip_cost path dn.2 0 := Nat.not_lt.mpr hcost
  simp [probeNeighbour, hfresh, hc', hmv]

theorem probeNeighbour_frontier (path : List Dir) (tile : Coord)
    (st : ExploreState) (dn : Dir × Coord) :
    (probeNeighbour path tile st dn).frontier = st.frontier := by
  simp only [probeNeighbour]
  split_ifs <;> rfl

theorem probeNeighbour_radius (path : List Dir) (tile : Coord)
    (st : ExploreState) (dn : Dir × Coord) :
    (probeNeighbour path tile st dn).radius = st.radius := by
  simp only [probeNeighbour]
  split_ifs <;> rfl

theorem foldl_probe_frontier (path : List Dir) (tile : Coord)
    (l : List (Dir × Coord)) (st : ExploreState) :
    (l.foldl (probeNeighbour path tile) st).frontier = st.frontier := by
  induction l generalizing st with
  | nil => rfl
  | cons dn t ih => rw [List.foldl_cons, ih, probeNeighbour_frontier]

theorem foldl_probe_radius (path : List Dir) (tile : Coord)
    (l : List (Dir × Coord)) (st : ExploreState) :
    (l.foldl (probeNeighbour path tile) st).radius = st.radius := by
  induction l generalizing st with
  | nil => rfl
  | cons dn t ih => rw [List.foldl_cons, ih, probeNeighbour_radius]

theorem processTile_frontier (st : ExploreState) (tile : Coord) :
    (processTile st tile).frontier = st.frontier := by
  simp only [processTile]
  rw [foldl_probe_frontier]

theorem processTile_radius (st : ExploreState) (tile : Coord) :
    (processTile st tile).radius = st.radius := by
  simp only [processTile]
  rw [foldl_probe_radius]

theorem foldl_process_frontier (l : List Coord) (st : ExploreState) :
    (l.foldl processTile st).frontier = st.frontier := by
  induction l generalizing st with
  | nil => rfl
  | cons c t ih => rw [List.foldl_cons, ih, processTile_frontier]

theorem foldl_process_radius (l : List Coord) (st : ExploreState) :
    (l.foldl processTile st).radius = st.radius := by
  induction l generalizing st with
  | nil => rfl
  | cons c t ih => rw [List.foldl_cons, ih, processTile_radius]

-- ── the explorer invariant ──────────────────────────────────────────────

theorem Inv.rover_update {st : ExploreState} (hI : Inv st) (rv : Rover) :
    Inv { st with rover := rv } :=
  { nodupE := hI.nodupE, homeP := hI.homeP, subPE := hI.subPE, wfP := hI.wfP
    frontP := hI.frontP, nextP := hI.nextP, distE := hI.distE, logOK := hI.logOK }

theorem Ext.rfl (s : ExploreState) : Ext s s := ⟨MapLe.refl _, MapLe.refl _⟩

theorem Ext.chain {a b c : ExploreState} (h₁ : Ext a b) (h₂ : Ext b c) : Ext a c :=
  ⟨h₁.exploredLe.comp h₂.exploredLe, h₁.parentsLe.comp h₂.parentsLe⟩

theorem probeNeighbour_inv (path : List Dir) (tile : Coord) (st : ExploreState)
    (dn : Dir × Coord) (hI : Inv st)
    (hadj : dn.2 = stepc tile dn.1)
    (htl : _manhattan tile (0, 0) ≤ path.length)
    (htile : (lookupC st.parents tile).isSome) :
    Inv (probeNeighbour path tile st dn) ∧ Ext st (probeNeighbour path tile st dn) := by
  by_cases h1 : (lookupC st.explored dn.2).isSome
  · rw [probeNeighbour_of_explored path tile st dn h1]
    exact ⟨hI, Ext.rfl st⟩
  by_cases h2 : FULL_BATTERY < _roundtrip_cost path dn.2 (0, 0)
  · rw [probeNeighbour_of_cost path tile st dn h2]
    exact ⟨hI, Ext.rfl st⟩
  have hfresh : lookupC st.explored dn.2 = none := by
    cases hlk : lookupC st.explored dn.2 with
    | none => rfl
    | some v => rw [hlk] at h1; simp at h1
  have hcost : _roundtrip_cost path dn.2 (0, 0) ≤ FULL_BATTERY := Nat.not_lt.mp h2
  have hnbr10 : _manhattan dn.2 (0, 0) ≤ 10 := by
    have hstep : _manhattan dn.2 (0, 0) ≤ _manhattan tile (0, 0) + 1 := by
      rw [hadj]
      exact manhattan_stepc_le tile (0, 0) dn.1
    have hc : path.length + 1 + _manhattan dn.2 (0, 0) ≤ 20 := hcost
    omega
  have hfreshP : lookupC st.parents dn.2 = none := by
    cases hlk : lookupC st.parents dn.2 with
    | none => rfl
    | some v =>
      have hs : (lookupC st.explored dn.2).isSome := hI.subPE dn.2 (by rw [hlk]; rfl)
      rw [hfresh] at hs
      simp at hs
  have hhomeNe : (0, 0) ≠ dn.2 := by
    intro he
    have hs : (lookupC st.explored (0, 0)).isSome :=
      hI.subPE (0, 0) (by rw [hI.homeP]; rfl)
    rw [he, hfresh] at hs
    simp at hs
  rcases hmv : st.rover.move dn.1 with ⟨rv, ok, r⟩
  cases ok with
  | true =>
    rw [probeNeighbour_success path tile st dn rv r hfresh hcost hmv]
    have hEl : MapLe st.explored (insertD st.explored dn.2 rv.get_current_location) :=
      MapLe.insert_fresh _ _ _ hfresh
    have hPl : MapLe st.parents (insertD st.parents dn.2 (some tile)) :=
      MapLe.insert_fresh _ _ _ hfreshP
    refine ⟨⟨?_, ?_, ?_, ?_, ?_, ?_, ?_, ?_⟩, ⟨hEl, hPl⟩⟩
    · exact nodup_keysD_insertD _ _ _ hI.nodupE hfresh
    · rw [lookupC_insertD_ne _ _ _ hhomeNe]
      exact hI.homeP
    · intro c hc
      by_cases hcn : c = dn.2
      · subst hcn
        rw [lookupC_insertD_self]
        rfl
      · rw [lookupC_insertD_ne _ _ _ hcn] at hc
        exact hEl.isSome (hI.subPE c hc)
    · intro c hc
      by_cases hcn : c = dn.2
      · subst hcn
        obtain ⟨n, hrn, hb⟩ := hI.wfP tile htile
        refine ⟨n + 1, ?_, ?_⟩
        · exact ReachesHome.step dn.1 (lookupC_insertD_self _ _ _) hadj (hrn.mono hPl)
        · rw [length_insertD_fresh _ _ _ hfreshP]
          omega
      · rw [lookupC_insertD_ne _ _ _ hcn] at hc
        obtain ⟨n, hrn, hb⟩ := hI.wfP c hc
        refine ⟨n, hrn.mono hPl, ?_⟩
        rw [length_insertD_fresh _ _ _ hfreshP]
        omega
    · intro c hc
      exact hPl.isSome (hI.frontP c hc)
    · intro c hc
      rcases List.mem_append.mp hc with h | h
      · exact hPl.isSome (hI.nextP c h)
      · simp at h
        subst h
        rw [lookupC_insertD_self]
        rfl
    · intro c v hcv
      by_cases hcn : c = dn.2
      · subst hcn
        exact hnbr10
      · rw [lookupC_insertD_ne _ _ _ hcn] at hcv
        exact hI.distE c v hcv
    · intro e he hgood
      rcases List.mem_append.mp he with h | h
      · exact hEl.isSome (hI.logOK e h hgood)
      · simp at h
        subst h
        rw [lookupC_insertD_self]
        rfl
  | false =>
    rw [probeNeighbour_failure path tile st dn rv r hfresh hcost hmv]
    by_cases hr : r = some "Obstructed Space"
    · rw [if_pos hr]
      have hEl : MapLe st.explored (insertD st.explored dn.2 'X') :=
        MapLe.insert_fresh _ _ _ hfresh
      refine ⟨⟨?_, hI.homeP, ?_, hI.wfP, hI.frontP, hI.nextP, ?_, ?_⟩,
        ⟨hEl, MapLe.refl _⟩⟩
      · exact nodup_keysD_insertD _ _ _ hI.nodupE hfresh
      · intro c hc
        exact hEl.isSome (hI.subPE c hc)
      · intro c v hcv
        by_cases hcn : c = dn.2
        · subst hcn
          exact hnbr10
        · rw [lookupC_insertD_ne _ _ _ hcn] at hcv
          exact hI.distE c v hcv
      · intro e he hgood
        rcases List.mem_append.mp he with h | h
        · exact hEl.isSome (hI.logOK e h hgood)
        · simp at h
          subst h
          rw [lookupC_insertD_self]
          rfl
    · rw [if_neg hr]
      refine ⟨⟨hI.nodupE, hI.homeP, hI.subPE, hI.wfP, hI.frontP, hI.nextP, hI.distE, ?_⟩,
        ⟨MapLe.refl _, MapLe.refl _⟩⟩
      intro e he hgood
      rcases List.mem_append.mp he with h | h
      · exact hI.logOK e h hgood
      · simp at h
        subst h
        rcases hgood with hg | hg
        · simp at hg
        · exact absurd hg hr

theorem foldl_probe_inv (path : List Dir) (tile : Coord) (l : List (Dir × Coord))
    (st : ExploreState) (hI : Inv st)
    (hl : ∀ dn ∈ l, dn.2 = stepc tile dn.1)
    (htl : _manhattan tile (0, 0) ≤ path.length)
    (htile : (lookupC st.parents tile).isSome) :
    Inv (l.foldl (probeNeighbour path tile) st) ∧
      Ext st (l.foldl (probeNeighbour path tile) st) := by
  induction l generalizing st with
  | nil => exact ⟨hI, Ext.rfl st⟩
  | cons dn t ih =>
    obtain ⟨hI', hE'⟩ := probeNeighbour_inv path tile st dn hI (hl dn (by simp)) htl htile
    obtain ⟨hI'', hE''⟩ :=
      ih _ hI' (fun x hx => hl x (by simp [hx])) (hE'.parentsLe.isSome htile)
    exact ⟨hI'', hE'.chain hE''⟩

theorem processTile_inv (st : ExploreState) (tile : Coord) (hI : Inv st)
    (htile : (lookupC st.parents tile).isSome) :
    Inv (processTile st tile) ∧ Ext st (processTile st tile) := by
  obtain ⟨n, hrn, hb⟩ := hI.wfP tile htile
  obtain ⟨hlen, hend⟩ := reconstruct_spec hrn (by omega)
  have htl : _manhattan tile (0, 0) ≤ (_reconstruct_path tile st.parents).length := by
    rw [hlen]
    exact hrn.manhattan_le
  have hI1 : Inv { st with rover := _travel st.rover (_reconstruct_path tile st.parents) } :=
    hI.rover_update _
  obtain ⟨hI2, hE2⟩ := foldl_probe_inv (_reconstruct_path tile st.parents) tile
    (_neighbours tile) _ hI1 (fun dn hdn => snd_eq_stepc_of_mem_neighbours hdn) htl htile
  exact ⟨hI2.rover_update _, ⟨hE2.exploredLe, hE2.parentsLe⟩⟩

theorem foldl_process_inv (l : List Coord) (st : ExploreState) (hI : Inv st)
    (hsub : ∀ c ∈ l, c ∈ st.frontier) :
    Inv (l.foldl processTile st) ∧ Ext st (l.foldl processTile st) := by
  induction l generalizing st with
  | nil => exact ⟨hI, Ext.rfl st⟩
  | cons c t ih =>
    have hc : (lookupC st.parents c).isSome := hI.frontP c (hsub c (by simp))
    obtain ⟨hI', hE'⟩ := processTile_inv st c hI hc
    have hsub' : ∀ x ∈ t, x ∈ (processTile st c).frontier := by
      rw [processTile_frontier]
      exact fun x hx => hsub x (by simp [hx])
    obtain ⟨hI'', hE''⟩ := ih _ hI' hsub'
    exact ⟨hI'', hE'.chain hE''⟩

theorem exploreLoop_guard_false {st : ExploreState}
    (h : ¬(st.frontier ≠ [] ∧ 2 * (st.radius + 1) ≤ FULL_BATTERY)) (fuel : Nat) :
    exploreLoop fuel st = st := by
  cases fuel with
  | zero => rfl
  | succ f =>
    simp only [exploreLoop]
    rw [if_neg h]

theorem exploreLoop_inv (fuel : Nat) (st : ExploreState) (hI : Inv st) :
    Inv (exploreLoop fuel st) ∧ Ext st (exploreLoop fuel st) := by
  induction fuel generalizing st with
  | zero => exact ⟨hI, Ext.rfl st⟩
  | succ f ih =>
    by_cases hg : st.frontier ≠ [] ∧ 2 * (st.radius + 1) ≤ FULL_BATTERY
    · simp only [exploreLoop]
      rw [if_pos hg]
      have hI0 : Inv { st with nextFrontier := [] } :=
        { nodupE := hI.nodupE, homeP := hI.homeP, subPE := hI.subPE, wfP := hI.wfP
          frontP := hI.frontP
          nextP := fun c hc => absurd hc (List.not_mem_nil c)
          distE := hI.distE, logOK := hI.logOK }
      obtain ⟨hI1, hE1⟩ :=
        foldl_process_inv st.frontier { st with nextFrontier := [] } hI0 (fun c hc => hc)
      have hI2 :
          Inv { st.frontier.foldl processTile { st with nextFrontier := [] } with
                frontier :=
                  (st.frontier.foldl processTile { st with nextFrontier := [] }).nextFrontier
                radius :=
                  (st.frontier.foldl processTile { st with nextFrontier := [] }).radius + 1 } :=
        { nodupE := hI1.nodupE, homeP := hI1.homeP, subPE := hI1.subPE, wfP := hI1.wfP
          frontP := hI1.nextP, nextP := hI1.nextP, distE := hI1.distE, logOK := hI1.logOK }
      obtain ⟨hI3, hE3⟩ := ih _ hI2
      refine ⟨hI3, Ext.chain ⟨hE1.exploredLe, hE1.parentsLe⟩
        (Ext.chain ⟨hE3.exploredLe, hE3.parentsLe⟩ (Ext.rfl _))⟩
    · rw [exploreLoop_guard_false hg]
      exact ⟨hI, Ext.rfl st⟩

theorem initState_inv (g : List (List Char)) : Inv (initState g) := by
  refine ⟨?_, ?_, ?_, ?_, ?_, ?_, ?_, ?_⟩
  · simp [initState, keysD]
  · simp [initState, lookupC]
  · intro c hc
    by_cases h : c = (0, 0)
    · subst h
      simp [initState, lookupC]
    · simp [initState, lookupC] at hc
      exact absurd (by simpa using hc) h
  · intro c hc
    by_cases h : c = (0, 0)
    · subst h
      refine ⟨0, ReachesHome.home (by simp [initState, lookupC]), by simp [initState]⟩
    · simp [initState, lookupC] at hc
      exact absurd (by simpa using hc) h
  · intro c hc
    simp [initState] at hc
    subst hc
    simp [initState, lookupC]
  · intro c hc
    simp [initState] at hc
  · intro c v hcv
    by_cases h : c = (0, 0)
    · subst h
      simp [_manhattan]
    · simp [initState, lookupC] at hcv
      exact absurd (by simpa using hcv.1) h
  · intro e he
    simp [initState] at he

-- ── loop arithmetic: termination, fuel insensitivity, composition ───────

theorem exploreLoop_step {st : ExploreState}
    (hg : st.frontier ≠ [] ∧ 2 * (st.radius + 1) ≤ FULL_BATTERY) (f : Nat) :
    exploreLoop (f + 1) st =
      exploreLoop f
        { st.frontier.foldl processTile { st with nextFrontier := [] } with
          frontier :=
            (st.frontier.foldl processTile { st with nextFrontier := [] }).nextFrontier
          radius :=
            (st.frontier.foldl processTile { st with nextFrontier := [] }).radius + 1 } := by
  simp only [exploreLoop]
  rw [if_pos hg]

theorem exploreLoop_succ_of_le :
    ∀ (fuel : Nat) (st : ExploreState), 10 ≤ fuel + st.radius →
      exploreLoop (fuel + 1) st = exploreLoop fuel st := by
  intro fuel
  induction fuel with
  | zero =>
    intro st h
    have hg : ¬(st.frontier ≠ [] ∧ 2 * (st.radius + 1) ≤ FULL_BATTERY) := by
      intro hg
      have h2 := hg.2
      simp [FULL_BATTERY] at h2
      omega
    rw [exploreLoop_guard_false hg, exploreLoop_guard_false hg]
  | succ f ih =>
    intro st h
    by_cases hg : st.frontier ≠ [] ∧ 2 * (st.radius + 1) ≤ FULL_BATTERY
    · rw [exploreLoop_step hg (f + 1), exploreLoop_step hg f]
      apply ih
      show 10 ≤ f + ((st.frontier.foldl processTile { st with nextFrontier := [] }).radius + 1)
      rw [foldl_process_radius]
      show 10 ≤ f + (st.radius + 1)
      omega
    · rw [exploreLoop_guard_false hg, exploreLoop_guard_false hg]

theorem exploreLoop_fuel_ge (fuel : Nat) (st : ExploreState)
    (h10 : 10 ≤ fuel) (hr : st.radius = 0) :
    exploreLoop fuel st = exploreLoop 10 st := by
  obtain ⟨k, rfl⟩ : ∃ k, fuel = 10 + k := ⟨fuel - 10, by omega⟩
  clear h10
  induction k with
  | zero => rfl
  | succ k ih =>
    have : 10 + (k + 1) = (10 + k) + 1 := by omega
    rw [this, exploreLoop_succ_of_le (10 + k) st (by omega), ih]

theorem exploreLoop_exit :
    ∀ (fuel : Nat) (st : ExploreState), 10 ≤ fuel + st.radius →
      (exploreLoop fuel st).frontier = [] ∨
        FULL_BATTERY < 2 * ((exploreLoop fuel st).radius + 1) := by
  intro fuel
  induction fuel with
  | zero =>
    intro st h
    right
    show FULL_BATTERY < 2 * (st.radius + 1)
    simp [FULL_BATTERY]
    omega
  | succ f ih =>
    intro st h
    by_cases hg : st.frontier ≠ [] ∧ 2 * (st.radius + 1) ≤ FULL_BATTERY
    · rw [exploreLoop_step hg f]
      apply ih
      show 10 ≤ f + ((st.frontier.foldl processTile { st with nextFrontier := [] }).radius + 1)
      rw [foldl_process_radius]
      show 10 ≤ f + (st.radius + 1)
      omega
    · rw [exploreLoop_guard_false hg]
      by_cases hf : st.frontier = []
      · exact Or.inl hf
      · right
        have : ¬ 2 * (st.radius + 1) ≤ FULL_BATTERY := fun hb => hg ⟨hf, hb⟩
        omega

theorem exploreLoop_radius_le :
    ∀ (fuel : Nat) (st : ExploreState), st.radius ≤ 10 →
      (exploreLoop fuel st).radius ≤ 10 := by
  intro fuel
  induction fuel with
  | zero => exact fun st h => h
  | succ f ih =>
    intro st h
    by_cases hg : st.frontier ≠ [] ∧ 2 * (st.radius + 1) ≤ FULL_BATTERY
    · rw [exploreLoop_step hg f]
      apply ih
      show (st.frontier.foldl processTile { st with nextFrontier := [] }).radius + 1 ≤ 10
      rw [foldl_process_radius]
      show st.radius + 1 ≤ 10
      have h2 := hg.2
      simp [FULL_BATTERY] at h2
      omega
    · rw [exploreLoop_guard_false hg]
      exact h

theorem exploreLoop_one_radius {st : ExploreState}
    (hg : st.frontier ≠ [] ∧ 2 * (st.radius + 1) ≤ FULL_BATTERY) :
    (exploreLoop 1 st).radius = st.radius + 1 := by
  rw [exploreLoop_step hg 0]
  show (st.frontier.foldl processTile { st with nextFrontier := [] }).radius + 1 = st.radius + 1
  rw [foldl_process_radius]

theorem exploreLoop_add (a b : Nat) :
    ∀ st : ExploreState, exploreLoop (a + b) st = exploreLoop b (exploreLoop a st) := by
  induction a with
  | zero =>
    intro st
    rw [Nat.zero_add]
    rfl
  | succ a ih =>
    intro st
    rw [Nat.succ_add]
    by_cases hg : st.frontier ≠ [] ∧ 2 * (st.radius + 1) ≤ FULL_BATTERY
    · rw [exploreLoop_step hg (a + b), exploreLoop_step hg a, ih]
    · rw [exploreLoop_guard_false hg, exploreLoop_guard_false hg, exploreLoop_guard_false hg]

-- ── list minimum / maximum ──────────────────────────────────────────────

theorem foldl_min_le_init (ys : List Int) : ∀ a : Int, ys.foldl min a ≤ a := by
  induction ys with
  | nil => intro a; exact le_refl a
  | cons y t ih => intro a; exact le_trans (ih (min a y)) (min_le_left a y)

theorem foldl_min_le_mem (ys : List Int) : ∀ a x : Int, x ∈ ys → ys.foldl min a ≤ x := by
  induction ys with
  | nil => intro a x hx; simp at hx
  | cons y t ih =>
    intro a x hx
    rcases List.mem_cons.mp hx with h | h
    · subst h
      exact le_trans (foldl_min_le_init t (min a x)) (min_le_right a x)
    · exact ih (min a y) x h

theorem listMin_le {l : List Int} {x : Int} (hx : x ∈ l) : listMin l ≤ x := by
  cases l with
  | nil => simp at hx
  | cons y t =>
    rcases List.mem_cons.mp hx with h | h
    · subst h
      exact foldl_min_le_init t x
    · exact foldl_min_le_mem t y x h

theorem init_le_foldl_max (ys : List Int) : ∀ a : Int, a ≤ ys.foldl max a := by
  induction ys with
  | nil => intro a; exact le_refl a
  | cons y t ih => intro a; exact le_trans (le_max_left a y) (ih (max a y))

theorem mem_le_foldl_max (ys : List Int) : ∀ a x : Int, x ∈ ys → x ≤ ys.foldl max a := by
  induction ys with
  | nil => intro a x hx; simp at hx
  | cons y t ih =>
    intro a x hx
    rcases List.mem_cons.mp hx with h | h
    · subst h
      exact le_trans (le_max_right a x) (init_le_foldl_max t (max a x))
    · exact ih (max a y) x h

theorem le_listMax {l : List Int} {x : Int} (hx : x ∈ l) : x ≤ listMax l := by
  cases l with
  | nil => simp at hx
  | cons y t =>
    rcases List.mem_cons.mp hx with h | h
    · subst h
      exact init_le_foldl_max t x
    · exact mem_le_foldl_max t y x h

theorem listMin_le_listMax {l : List Int} (h : l ≠ []) : listMin l ≤ listMax l := by
  cases l with
  | nil => exact absurd rfl h
  | cons y t =>
    exact le_trans (listMin_le (List.mem_cons_self y t)) (le_listMax (List.mem_cons_self y t))

-- ── dense grid cell lemmas ──────────────────────────────────────────────

theorem length_set2d (g : List (List Char)) (i j : Nat) (ch : Char) :
    (set2d g i j ch).length = g.length := by
  simp [set2d]

theorem rows_set2d {W : Nat} {g : List (List Char)} (hw : ∀ row ∈ g, row.length = W)
    (i j : Nat) (ch : Char) : ∀ row ∈ set2d g i j ch, row.length = W := by
  by_cases hi : i < g.length
  · intro row hrow
    unfold set2d at hrow
    rcases List.mem_or_eq_of_mem_set hrow with h | h
    · exact hw row h
    · subst h
      rw [List.length_set, List.getD_eq_getElem g [] hi]
      exact hw _ (List.getElem_mem hi)
  · intro row hrow
    unfold set2d at hrow
    rw [List.set_eq_of_length_le (by omega)] at hrow
    exact hw row hrow

theorem get2d_set2d_self {g : List (List Char)} {i j : Nat} (ch : Char)
    (hi : i < g.length) (hj : j < (g.getD i []).length) :
    get2d (set2d g i j ch) i j = some ch := by
  unfold get2d set2d
  rw [List.getElem?_set_eq hi]
  simp only
  exact List.getElem?_set_eq hj

theorem get2d_set2d_ne {g : List (List Char)} {i j i' j' : Nat} (ch : Char)
    (hne : i ≠ i' ∨ j ≠ j') :
    get2d (set2d g i j ch) i' j' = get2d g i' j' := by
  unfold get2d set2d
  by_cases hii : i = i'
  · subst hii
    have hjj : j ≠ j' := hne.resolve_left (fun h => h rfl)
    by_cases hl : i < g.length
    · rw [List.getElem?_set_eq hl, (List.getElem?_eq_some_getElem_iff g i hl).mpr trivial]
      simp only
      rw [List.getElem?_set_ne hjj, List.getD_eq_getElem g [] hl]
    · rw [List.set_eq_of_length_le (by omega)]
  · rw [List.getElem?_set_ne hii]

theorem get2d_replicate (H W : Nat) {i j : Nat} (hi : i < H) (hj : j < W) :
    get2d (List.replicate H (List.replicate W '?')) i j = some '?' := by
  unfold get2d
  rw [List.getElem?_replicate_of_lt hi]
  simp only
  exact List.getElem?_replicate_of_lt hj

theorem length_writeEntry (mr mc h w : Int) (g : List (List Char)) (e : Coord × Char) :
    (writeEntry mr mc h w g e).length = g.length := by
  simp only [writeEntry]
  split_ifs
  · exact length_set2d g _ _ e.2
  · rfl

theorem rows_writeEntry {W : Nat} (mr mc h w : Int) {g : List (List Char)}
    (hw : ∀ row ∈ g, row.length = W) (e : Coord × Char) :
    ∀ row ∈ writeEntry mr mc h w g e, row.length = W := by
  simp only [writeEntry]
  split_ifs
  · exact rows_set2d hw _ _ e.2
  · exact hw

theorem foldl_write_length (mr mc h w : Int) :
    ∀ (l : List (Coord × Char)) (g : List (List Char)),
      (l.foldl (writeEntry mr mc h w) g).length = g.length := by
  intro l
  induction l with
  | nil => intro g; rfl
  | cons e t ih =>
    intro g
    rw [List.foldl_cons, ih, length_writeEntry]

theorem foldl_write_rows {W : Nat} (mr mc h w : Int) :
    ∀ (l : List (Coord × Char)) (g : List (List Char)),
      (∀ row ∈ g, row.length = W) →
      ∀ row ∈ l.foldl (writeEntry mr mc h w) g, row.length = W := by
  intro l
  induction l with
  | nil => intro g hg; exact hg
  | cons e t ih =>
    intro g hg
    rw [List.foldl_cons]
    exact ih _ (rows_writeEntry mr mc h w hg e)

theorem foldl_write_no_hit {mr mc h w : Int} {i j : Nat}
    (hi : (i : Int) < h) (hj : (j : Int) < w) :
    ∀ (l : List (Coord × Char)) (g : List (List Char)),
      (∀ e ∈ l, e.1 ≠ (mr + (i : Int), mc + (j : Int))) →
      get2d (l.foldl (writeEntry mr mc h w) g) i j = get2d g i j := by
  intro l
  induction l with
  | nil => intro g _; rfl
  | cons e t ih =>
    intro g hmiss
    rw [List.foldl_cons, ih _ (fun x hx => hmiss x (List.mem_cons_of_mem _ hx))]
    simp only [writeEntry]
    split_ifs with hbox
    · apply get2d_set2d_ne
      by_contra hcon
      push_neg at hcon
      obtain ⟨h1, h2⟩ := hcon
      apply hmiss e (List.mem_cons_self e t)
      obtain ⟨hb1, hb2, hb3, hb4⟩ := hbox
      have e1 : e.1.1 - mr = (i : Int) := by
        rw [← h1]
        exact (Int.toNat_of_nonneg hb1).symm
      have e2 : e.1.2 - mc = (j : Int) := by
        rw [← h2]
        exact (Int.toNat_of_nonneg hb3).symm
      exact Prod.ext (by omega) (by omega)
    · rfl

theorem foldl_write_hit {mr mc h w : Int} {i j : Nat}
    (hi : (i : Int) < h) (hj : (j : Int) < w) :
    ∀ (l : List (Coord × Char)) (g : List (List Char)),
      (keysD l).Nodup →
      g.length = h.toNat → (∀ row ∈ g, row.length = w.toNat) →
      ∀ ch : Char, ((mr + (i : Int), mc + (j : Int)), ch) ∈ l →
      get2d (l.foldl (writeEntry mr mc h w) g) i j = some ch := by
  intro l
  induction l with
  | nil =>
    intro g _ _ _ ch hmem
    simp at hmem
  | cons e t ih =>
    intro g hnd hlen hrows ch hmem
    have hnd' : (keysD t).Nodup := by
      simp only [keysD, List.map_cons, List.nodup_cons] at hnd
      exact hnd.2
    rcases List.mem_cons.mp hmem with he | he
    · have hkey : e.1 ∉ keysD t := by
        simp only [keysD, List.map_cons, List.nodup_cons] at hnd
        exact hnd.1
      rw [List.foldl_cons]
      have he1 : e.1 = (mr + (i : Int), mc + (j : Int)) := by rw [← he]
      have hwrite : writeEntry mr mc h w g e = set2d g i j ch := by
        rw [← he]
        show (if 0 ≤ mr + (i : Int) - mr ∧ mr + (i : Int) - mr < h ∧
              0 ≤ mc + (j : Int) - mc ∧ mc + (j : Int) - mc < w then
            set2d g (mr + (i : Int) - mr).toNat (mc + (j : Int) - mc).toNat ch
          else g) = set2d g i j ch
        rw [if_pos ⟨by omega, by omega, by omega, by omega⟩]
        have t1 : (mr + (i : Int) - mr).toNat = i := by omega
        have t2 : (mc + (j : Int) - mc).toNat = j := by omega
        rw [t1, t2]
      rw [hwrite, foldl_write_no_hit hi hj t _ ?_]
      · apply get2d_set2d_self ch
        · omega
        · rw [List.getD_eq_getElem g [] (by omega)]
          rw [hrows _ (List.getElem_mem (by omega))]
          omega
      · intro x hx hxeq
        apply hkey
        rw [he1, ← hxeq]
        exact List.mem_map.mpr ⟨x, hx, rfl⟩
    · rw [List.foldl_cons]
      exact ih _ hnd'
        (by rw [length_writeEntry]; exact hlen)
        (rows_writeEntry mr mc h w hrows e) ch he

-- ── densePreTrim dimension and cell content ─────────────────────────────

theorem densePreTrim_length (explored : List (Coord × Char)) :
    (densePreTrim explored).length = (maxRowD explored - minRowD explored + 1).toNat := by
  simp only [densePreTrim]
  rw [foldl_write_length]
  exact List.length_replicate _ _

theorem densePreTrim_rows (explored : List (Coord × Char)) :
    ∀ row ∈ densePreTrim explored,
      row.length = (maxColD explored - minColD explored + 1).toNat := by
  simp only [densePreTrim]
  apply foldl_write_rows
  intro row hrow
  rw [List.eq_of_mem_replicate hrow]
  exact List.length_replicate _ _

theorem densePreTrim_cell (explored : List (Coord × Char))
    (hn : (keysD explored).Nodup) (i j : Nat)
    (hi : i < (maxRowD explored - minRowD explored + 1).toNat)
    (hj : j < (maxColD explored - minColD explored + 1).toNat) :
    get2d (densePreTrim explored) i j =
      some ((lookupC explored
        (minRowD explored + (i : Int), minColD explored + (j : Int))).getD '?') := by
  have hi' : (i : Int) < maxRowD explored - minRowD explored + 1 := by omega
  have hj' : (j : Int) < maxColD explored - minColD explored + 1 := by omega
  simp only [densePreTrim]
  cases hlk : lookupC explored (minRowD explored + (i : Int), minColD explored + (j : Int)) with
  | some ch =>
    rw [foldl_write_hit hi' hj' explored _ hn (List.length_replicate _ _)
      (fun row hrow => by
        rw [List.eq_of_mem_replicate hrow]
        exact List.length_replicate _ _)
      ch (mem_of_lookupC_eq_some hlk)]
    rfl
  | none =>
    have hmiss : ∀ e ∈ explored,
        e.1 ≠ (minRowD explored + (i : Int), minColD explored + (j : Int)) := by
      intro e hee heq
      have hk : e.1 ∈ keysD explored := List.mem_map.mpr ⟨e, hee, rfl⟩
      rw [heq] at hk
      exact (lookupC_eq_none_iff _ _).mp hlk hk
    rw [foldl_write_no_hit hi' hj' explored _ hmiss, get2d_replicate _ _ hi hj]
    rfl

-- ── border trimming ─────────────────────────────────────────────────────

theorem popLeading_eq_dropWhile (g : List (List Char)) :
    popLeadingUnknown g = g.dropWhile allUnknown := by
  induction g with
  | nil => rfl
  | cons r t ih =>
    simp only [popLeadingUnknown, List.dropWhile_cons]
    by_cases hr : allUnknown r
    · simp [hr, ih]
    · simp [hr]

theorem popTrim_eq (g : List (List Char)) :
    popTrailingUnknown (popLeadingUnknown g) = specRowTrim g := by
  unfold popTrailingUnknown specRowTrim
  rw [popLeading_eq_dropWhile, popLeading_eq_dropWhile]

theorem rect_dropWhile {g : List (List Char)} {w : Nat} (h : Rect g w) :
    Rect (g.dropWhile allUnknown) w :=
  fun row hrow => h row (List.Sublist.mem hrow (List.dropWhile_sublist allUnknown))

theorem rect_reverse {g : List (List Char)} {w : Nat} (h : Rect g w) :
    Rect g.reverse w :=
  fun row hrow => h row (List.mem_reverse.mp hrow)

theorem rect_specRowTrim {g : List (List Char)} {w : Nat} (h : Rect g w) :
    Rect (specRowTrim g) w :=
  rect_reverse (rect_dropWhile (rect_reverse (rect_dropWhile h)))

theorem rect_specColumns (g : List (List Char)) : Rect (specColumns g) g.length := by
  intro row hrow
  simp only [specColumns, List.mem_map] at hrow
  obtain ⟨j, _, hj⟩ := hrow
  rw [← hj]
  exact List.length_map _ _

theorem zipRows_eq_specColumns :
    ∀ (w : Nat) (g : List (List Char)), Rect g w → zipRows g = specColumns g := by
  intro w
  induction w with
  | zero =>
    intro g hg
    cases g with
    | nil => rfl
    | cons r t =>
      have hr : r.length = 0 := hg r (List.mem_cons_self r t)
      unfold zipRows specColumns
      rw [show (r :: t).headD [] = r from rfl, hr]
      rfl
  | succ w ih =>
    intro g hg
    cases g with
    | nil => rfl
    | cons r t =>
      have hr : r.length = w + 1 := hg r (List.mem_cons_self r t)
      have hall : ∀ row ∈ r :: t, row ≠ [] := by
        intro row hrow hemp
        have hlen := hg row hrow
        rw [hemp] at hlen
        simp at hlen
      have hcond : ((r :: t).all fun x => x ≠ []) = true := by
        simp only [List.all_eq_true, ne_eq, decide_not, Bool.not_eq_true']
        intro x hx
        simpa using hall x hx
      have htl : (r.tail).length = w := by
        rw [List.length_tail, hr]
        omega
      have hstep : zipRows (r :: t) =
          ((r :: t).map (fun x => x.headD '?')) :: zipRows ((r :: t).map (fun x => x.tail)) := by
        unfold zipRows
        rw [show (r :: t).headD [] = r from rfl, hr]
        rw [show ((r :: t).map (fun x => x.tail)).headD [] = r.tail from rfl, htl]
        simp only [zipRowsAux]
        rw [if_pos hcond]
      have hrect : Rect ((r :: t).map (fun x => x.tail)) w := by
        intro row hrow
        simp only [List.mem_map] at hrow
        obtain ⟨x, hx, hxe⟩ := hrow
        rw [← hxe, List.length_tail, hg x hx]
        omega
      have hspec : specColumns (r :: t) =
          ((r :: t).map (fun x => x.headD '?')) ::
            specColumns ((r :: t).map (fun x => x.tail)) := by
        unfold specColumns
        rw [show (r :: t).headD [] = r from rfl, hr]
        rw [show ((r :: t).map (fun x => x.tail)).headD [] = r.tail from rfl, htl]
        rw [List.range_succ_eq_map, List.map_cons]
        congr 1
        · apply List.map_eq_map_iff.mpr
          intro row hrow
          cases row with
          | nil => exact absurd rfl (hall _ hrow)
          | cons a as => rfl
        · rw [List.map_map]
          apply List.map_eq_map_iff.mpr
          intro jj _
          show (r :: t).map (fun row => row.getD (Nat.succ jj) '?') =
            ((r :: t).map (fun x => x.tail)).map (fun row => row.getD jj '?')
          rw [List.map_map]
          apply List.map_eq_map_iff.mpr
          intro row hrow
          cases row with
          | nil => exact absurd rfl (hall _ hrow)
          | cons a as => rfl
      rw [hstep, hspec, ih _ hrect]

theorem trim_eq_specTrimBorder (g : List (List Char)) (w : Nat) (hre : Rect g w) :
    _trim_unknown_border g = specTrimBorder g := by
  simp only [_trim_unknown_border, specTrimBorder]
  rw [popTrim_eq]
  by_cases h1 : specRowTrim g = []
  · rw [if_pos h1, if_pos h1]
  · rw [if_neg h1, if_neg h1]
    have hg1 : Rect (specRowTrim g) w := rect_specRowTrim hre
    rw [zipRows_eq_specColumns w _ hg1, popTrim_eq]
    have ht2 : Rect (specRowTrim (specColumns (specRowTrim g))) (specRowTrim g).length :=
      rect_specRowTrim (rect_specColumns _)
    rw [zipRows_eq_specColumns _ _ ht2]

-- ── claim theorems ──────────────────────────────────────────────────────

/-- C1: the claim that the rover's net displacement is zero after every run
of map_surface_with_battery_constraint fails on the code: on
overspendPlanet the per-neighbour round-trip guard does not account for the
probing step-backs of the same excursion, the depth-8 excursion costs 22
moves against the 20-unit battery, and the run ends with the rover stranded
at absolute (2, 2) - two cells away from its home (2, 0). -/
theorem c1_rover_stranded_away_from_home :
    findHome overspendPlanet = (2, 0) ∧
    (runExplore overspendPlanet).rover.pos = (2, 2) ∧
    (runExplore overspendPlanet).rover.pos ≠ findHome overspendPlanet := by
  refine ⟨by decide, by decide, ?_⟩
  intro h
  rw [show findHome overspendPlanet = (2, 0) from by decide] at h
  rw [show (runExplore overspendPlanet).rover.pos = (2, 2) from by decide] at h
  simp at h

/-- C2: every coordinate of the final Discovered-Map of
map_surface_with_battery_constraint - free or obstructed - lies within
Manhattan distance FULL_BATTERY / 2 = 10 of home, because the round-trip
guard only admits a neighbour when path length + 1 + its Manhattan distance
home is at most FULL_BATTERY and the reconstructed path is at least as long
as the tile's Manhattan distance home. -/
theorem c2_discovered_within_half_battery (g : List (List Char)) (c : Coord) (v : Char)
    (h : lookupC (runExplore g).explored c = some v) : _manhattan c (0, 0) ≤ 10 :=
  (exploreLoop_inv FULL_BATTERY (initState g) (initState_inv g)).1.distE c v h

theorem c2_witness :
    lookupC (runExplore [['H']]).explored (0, 0) = some 'H' ∧
    _manhattan (0, 0) (0, 0) ≤ 10 :=
  ⟨by decide, c2_discovered_within_half_battery [['H']] (0, 0) 'H' (by decide)⟩

/-- C3 counterexample: a coordinate for which a probe move was attempted but
failed with the non-obstruction reason "Insufficient Battery" has no entry
in the final Discovered-Map, so "every coordinate ever attempted (for any
failure reason) has exactly one entry" is false on the code. -/
theorem c3_attempted_coordinate_unrecorded :
    ((-2, 8), false, some "Insufficient Battery") ∈ (runExplore overspendPlanet).log ∧
    lookupC (runExplore overspendPlanet).explored (-2, 8) = none := by
  exact ⟨by decide, by decide⟩

/-- C3 (amended): every coordinate whose probe attempt succeeded or failed
with reason "Obstructed Space" has exactly one entry in the final
Discovered-Map (keys are unique); an attempt failing for any other reason
may leave no entry; and no recorded entry is ever removed or changed during
the run (lookups persist across any further outer-loop iterations). -/
theorem c3_recorded_monotone_unique (g : List (List Char)) :
    (keysD (runExplore g).explored).Nodup ∧
    (∀ e ∈ (runExplore g).log, (e.2.1 = true ∨ e.2.2 = some "Obstructed Space") →
      (lookupC (runExplore g).explored e.1).isSome) ∧
    (∀ (f1 f2 : Nat) (c : Coord) (v : Char),
      lookupC (exploreLoop f1 (initState g)).explored c = some v →
      lookupC (exploreLoop (f1 + f2) (initState g)).explored c = some v) := by
  have h := exploreLoop_inv FULL_BATTERY (initState g) (initState_inv g)
  refine ⟨h.1.nodupE, fun e he hg => h.1.logOK e he hg, ?_⟩
  intro f1 f2 c v hv
  rw [exploreLoop_add f1 f2]
  exact (exploreLoop_inv f2 (exploreLoop f1 (initState g))
    (exploreLoop_inv f1 (initState g) (initState_inv g)).1).2.exploredLe c v hv

theorem c3_witness :
    lookupC (exploreLoop 0 (initState [['H']])).explored (0, 0) = some 'H' ∧
    lookupC (exploreLoop (0 + 20) (initState [['H']])).explored (0, 0) = some 'H' :=
  ⟨by decide, (c3_recorded_monotone_unique [['H']]).2.2 0 20 (0, 0) 'H' (by decide)⟩

/-- C4: the outer loop runs exactly while the frontier is non-empty and
2 * (radius + 1) <= FULL_BATTERY: any fuel of at least FULL_BATTERY / 2 = 10
iterations yields the final state (termination), the final state fails the
guard exactly by frontier exhaustion or the radius bound, the final radius
never exceeds 10, and each iteration increments the radius by one. -/
theorem c4_loop_terminates_radius_bounded (g : List (List Char)) (fuel : Nat)
    (hf : 10 ≤ fuel) :
    exploreLoop fuel (initState g) = runExplore g ∧
    ((runExplore g).frontier = [] ∨ FULL_BATTERY < 2 * ((runExplore g).radius + 1)) ∧
    (runExplore g).radius ≤ 10 ∧
    (∀ st : ExploreState, st.frontier ≠ [] ∧ 2 * (st.radius + 1) ≤ FULL_BATTERY →
      (exploreLoop 1 st).radius = st.radius + 1) := by
  have hr0 : (initState g).radius = 0 := rfl
  refine ⟨?_, ?_, ?_, fun st hg => exploreLoop_one_radius hg⟩
  · rw [exploreLoop_fuel_ge fuel (initState g) hf hr0]
    show exploreLoop 10 (initState g) = exploreLoop FULL_BATTERY (initState g)
    rw [exploreLoop_fuel_ge FULL_BATTERY (initState g) (by decide) hr0]
  · exact exploreLoop_exit FULL_BATTERY (initState g) (by rw [hr0]; decide)
  · exact exploreLoop_radius_le FULL_BATTERY (initState g) (by rw [hr0]; omega)

theorem c4_witness :
    10 ≤ 10 ∧
    (exploreLoop 10 (initState [['H']]) = runExplore [['H']] ∧
      ((runExplore [['H']]).frontier = [] ∨
        FULL_BATTERY < 2 * ((runExplore [['H']]).radius + 1)) ∧
      (runExplore [['H']]).radius ≤ 10 ∧
      (∀ st : ExploreState, st.frontier ≠ [] ∧ 2 * (st.radius + 1) ≤ FULL_BATTERY →
        (exploreLoop 1 st).radius = st.radius + 1)) :=
  ⟨by decide, c4_loop_terminates_radius_bounded [['H']] 10 (by decide)⟩

/-- C5: for every coordinate recorded in the Parent-Map during a run,
following the directions of _reconstruct_path from home (0, 0) - applying
each direction's unit delta in order - ends exactly at that coordinate. -/
theorem c5_reconstruct_reaches_target (g : List (List Char)) (c : Coord)
    (hc : (lookupC (runExplore g).parents c).isSome) :
    followPath (0, 0) (_reconstruct_path c (runExplore g).parents) = c := by
  have hI := (exploreLoop_inv FULL_BATTERY (initState g) (initState_inv g)).1
  obtain ⟨n, hrn, hb⟩ := hI.wfP c hc
  exact (reconstruct_spec hrn (by omega)).2

theorem c5_witness :
    (lookupC (runExplore (["H."].map String.toList)).parents (0, 1)).isSome ∧
    followPath (0, 0)
      (_reconstruct_path (0, 1) (runExplore (["H."].map String.toList)).parents) = (0, 1) :=
  ⟨by decide, c5_reconstruct_reaches_target (["H."].map String.toList) (0, 1) (by decide)⟩

/-- C6: when a within-budget probe of a fresh neighbour fails, the explorer
records the neighbour as obstructed and does not enqueue it exactly when the
failure reason is "Obstructed Space"; any other failure reason leaves the
Discovered-Map unchanged; the parent map is never touched by a failure. -/
theorem c6_obstruction_recording_iff (path : List Dir) (tile : Coord)
    (st : ExploreState) (dn : Dir × Coord) (rv : Rover) (r : Option String)
    (hfresh : lookupC st.explored dn.2 = none)
    (hcost : _roundtrip_cost path dn.2 (0, 0) ≤ FULL_BATTERY)
    (hmv : st.rover.move dn.1 = (rv, false, r)) :
    ((lookupC (probeNeighbour path tile st dn).explored dn.2 = some 'X' ∧
      (probeNeighbour path tile st dn).nextFrontier = st.nextFrontier) ↔
      r = some "Obstructed Space") ∧
    (r ≠ some "Obstructed Space" →
      (probeNeighbour path tile st dn).explored = st.explored) ∧
    (probeNeighbour path tile st dn).parents = st.parents := by
  rw [probeNeighbour_failure path tile st dn rv r hfresh hcost hmv]
  refine ⟨⟨?_, ?_⟩, ?_, rfl⟩
  · rintro ⟨hx, _⟩
    by_contra hr
    rw [if_neg hr] at hx
    rw [hfresh] at hx
    cases hx
  · intro hr
    rw [if_pos hr]
    exact ⟨lookupC_insertD_self _ _ _, rfl⟩
  · intro hr
    rw [if_neg hr]

theorem c6_witness :
    lookupC probeTestState.explored (0, 1) = none ∧
    _roundtrip_cost [] (0, 1) (0, 0) ≤ FULL_BATTERY ∧
    probeTestState.rover.move Dir.E =
      (probeTestState.rover, false, some "Obstructed Space") ∧
    lookupC (probeNeighbour [] (0, 0) probeTestState (Dir.E, (0, 1))).explored (0, 1) =
      some 'X' := by
  refine ⟨by decide, by decide, by decide, ?_⟩
  have h := c6_obstruction_recording_iff [] (0, 0) probeTestState (Dir.E, (0, 1))
    probeTestState.rover (some "Obstructed Space") (by decide) (by decide) (by decide)
  exact (h.1.mpr rfl).1

/-- C7: the dense grid of _sparse_to_dense is sized by the bounding box of
exactly the non-obstructed coordinates, every cell inside the box carries
the recorded symbol of its coordinate or the placeholder '?' when the
coordinate has no entry, and when no non-obstructed coordinate exists the
function returns the empty map. -/
theorem c7_dense_bounding_box (explored : List (Coord × Char))
    (hn : (keysD explored).Nodup) :
    (nonObstructed explored = [] → _sparse_to_dense explored = [[]]) ∧
    (nonObstructed explored ≠ [] →
      _sparse_to_dense explored = _trim_unknown_border (densePreTrim explored) ∧
      (densePreTrim explored).length = (maxRowD explored - minRowD explored + 1).toNat ∧
      (∀ row ∈ densePreTrim explored,
        row.length = (maxColD explored - minColD explored + 1).toNat) ∧
      (∀ i j : Nat, i < (maxRowD explored - minRowD explored + 1).toNat →
        j < (maxColD explored - minColD explored + 1).toNat →
        get2d (densePreTrim explored) i j =
          some ((lookupC explored
            (minRowD explored + (i : Int), minColD explored + (j : Int))).getD '?'))) := by
  refine ⟨fun he => by simp [_sparse_to_dense, he],
    fun hne => ⟨by simp [_sparse_to_dense, hne], densePreTrim_length _,
      densePreTrim_rows _, fun i j hi hj => densePreTrim_cell explored hn i j hi hj⟩⟩

theorem c7_witness :
    (keysD denseTestMap).Nodup ∧
    get2d (densePreTrim denseTestMap) 0 0 = some 'H' := by
  refine ⟨by decide, ?_⟩
  have h := ((c7_dense_bounding_box denseTestMap (by decide)).2 (by decide)).2.2.2
    0 0 (by decide) (by decide)
  rw [h]
  decide

/-- C8: _trim_unknown_border removes the leading and trailing
all-placeholder rows, then - through Python's zip-based transposition - the
leading and trailing all-placeholder columns, in that order, one single pass
per axis with no row re-trim after the column pass: for rectangular input it
equals the specification-side single-pass trimming specTrimBorder. -/
theorem c8_trim_single_pass_per_axis (g : List (List Char)) (w : Nat) (hre : Rect g w) :
    _trim_unknown_border g = specTrimBorder g := by
  simp only [_trim_unknown_border, specTrimBorder]
  rw [popTrim_eq]
  by_cases h1 : specRowTrim g = []
  · rw [if_pos h1, if_pos h1]
  · rw [if_neg h1, if_neg h1]
    have hg1 : Rect (specRowTrim g) w := rect_specRowTrim hre
    rw [zipRows_eq_specColumns w _ hg1, popTrim_eq]
    have ht2 : Rect (specRowTrim (specColumns (specRowTrim g))) (specRowTrim g).length :=
      rect_specRowTrim (rect_specColumns _)
    rw [zipRows_eq_specColumns _ _ ht2]

theorem c8_witness :
    Rect trimTestGrid 1 ∧ _trim_unknown_border trimTestGrid = specTrimBorder trimTestGrid :=
  ⟨by unfold Rect; decide, c8_trim_single_pass_per_axis trimTestGrid 1 (by unfold Rect; decide)⟩

/-- C9: map_surface_with_battery_constraint is deterministic - two result
maps of the same planet are equal - and the neighbour probing order is the
fixed N, S, E, W with the unit deltas of the DIRS dict. -/
theorem c9_deterministic_fixed_order (g : List (List Char)) (m1 m2 : List (List Char))
    (h1 : m1 = map_surface_with_battery_constraint g)
    (h2 : m2 = map_surface_with_battery_constraint g) :
    m1 = m2 ∧
    ∀ pos : Coord, _neighbours pos =
      [(Dir.N, (pos.1 - 1, pos.2)), (Dir.S, (pos.1 + 1, pos.2)),
       (Dir.E, (pos.1, pos.2 + 1)), (Dir.W, (pos.1, pos.2 - 1))] := by
  refine ⟨h1.trans h2.symm, fun pos => ?_⟩
  simp [_neighbours, DIRS, stepc, delta, Prod.ext_iff]
  omega

theorem c9_witness :
    _neighbours (5, 7) =
      [(Dir.N, ((5 : Int) - 1, (7 : Int))), (Dir.S, (5 + 1, 7)),
       (Dir.E, (5, 7 + 1)), (Dir.W, (5, 7 - 1))] :=
  (c9_deterministic_fixed_order [['H']] _ _ rfl rfl).2 (5, 7)

/-- C10: an explored entry's marker appears in the dense (pre-trim) grid at
its box-relative cell exactly when its coordinate lies inside the bounding
box of the non-obstructed coordinates; in particular an obstruction outside
that box is silently omitted. -/
theorem c10_marker_iff_in_bbox (explored : List (Coord × Char))
    (hn : (keysD explored).Nodup) (r c : Int) (ch : Char)
    (hmem : ((r, c), ch) ∈ explored) :
    get2dI (densePreTrim explored) (r - minRowD explored) (c - minColD explored) =
        some ch ↔
      (minRowD explored ≤ r ∧ r ≤ maxRowD explored ∧
       minColD explored ≤ c ∧ c ≤ maxColD explored) := by
  have hlen := densePreTrim_length explored
  have hrows := densePreTrim_rows explored
  constructor
  · intro hget
    have h0 : 0 ≤ r - minRowD explored ∧ 0 ≤ c - minColD explored := by
      by_contra hc0
      rw [show get2dI (densePreTrim explored) (r - minRowD explored)
          (c - minColD explored) = none from by
        unfold get2dI
        rw [if_neg hc0]] at hget
      cases hget
    obtain ⟨hr0, hc0⟩ := h0
    have hik : (r - minRowD explored).toNat <
        (maxRowD explored - minRowD explored + 1).toNat := by
      by_contra hik
      have hnone : get2d (densePreTrim explored) (r - minRowD explored).toNat
          (c - minColD explored).toNat = none := by
        unfold get2d
        rw [List.getElem?_eq_none_iff.mpr (by rw [hlen]; omega)]
      unfold get2dI at hget
      rw [if_pos ⟨hr0, hc0⟩, hnone] at hget
      cases hget
    have hjk : (c - minColD explored).toNat <
        (maxColD explored - minColD explored + 1).toNat := by
      by_contra hjk
      have hi2 : (r - minRowD explored).toNat < (densePreTrim explored).length := by
        rw [hlen]
        exact hik
      have hrowe : (densePreTrim explored)[(r - minRowD explored).toNat]? =
          some ((densePreTrim explored)[(r - minRowD explored).toNat]) :=
        (List.getElem?_eq_some_getElem_iff _ _ hi2).mpr trivial
      have hwl : ((densePreTrim explored)[(r - minRowD explored).toNat]).length =
          (maxColD explored - minColD explored + 1).toNat :=
        hrows _ (List.getElem_mem hi2)
      have hnone : get2d (densePreTrim explored) (r - minRowD explored).toNat
          (c - minColD explored).toNat = none := by
        unfold get2d
        rw [hrowe]
        simp only
        exact List.getElem?_eq_none_iff.mpr (by omega)
      unfold get2dI at hget
      rw [if_pos ⟨hr0, hc0⟩, hnone] at hget
      cases hget
    exact ⟨by omega, by omega, by omega, by omega⟩
  · rintro ⟨h1, h2, h3, h4⟩
    have hi : (r - minRowD explored).toNat <
        (maxRowD explored - minRowD explored + 1).toNat := by omega
    have hj : (c - minColD explored).toNat <
        (maxColD explored - minColD explored + 1).toNat := by omega
    unfold get2dI
    rw [if_pos ⟨by omega, by omega⟩]
    rw [densePreTrim_cell explored hn _ _ hi hj]
    have e1 : minRowD explored + ((r - minRowD explored).toNat : Int) = r := by omega
    have e2 : minColD explored + ((c - minColD explored).toNat : Int) = c := by omega
    rw [e1, e2, lookupC_eq_some_of_mem_nodup hmem hn]
    rfl

theorem c10_witness :
    (keysD denseTestMap).Nodup ∧ (((0 : Int), (2 : Int)), 'X') ∈ denseTestMap ∧
    get2dI (densePreTrim denseTestMap) (0 - minRowD denseTestMap)
      (2 - minColD denseTestMap) ≠ some 'X' := by
  refine ⟨by decide, by decide, ?_⟩
  intro hsome
  have h := (c10_marker_iff_in_bbox denseTestMap (by decide) 0 2 'X' (by decide)).mp hsome
  have h2 : (2 : Int) ≤ maxColD denseTestMap := h.2.2.2
  have h3 : ¬ (2 : Int) ≤ maxColD denseTestMap := by decide
  exact h3 h2

end MarsRover
